/-
Verification of the WarpX fluid container core
(Source/Fluids/WarpXFluidContainer.cpp) and of the HeapSort utility of
VelocityCoincidenceThinning.

The mesh is modelled as a product of three additive groups: instantiating
each factor with ZMod n gives a periodic grid of any size, instantiating
with Int gives an unbounded grid.  Field values live in an arbitrary
linearly ordered field (Rat for exact executable arithmetic, Real for the
algebraic facts about the exact square root).  The numeric square root of
the C++ code is an explicit function parameter sqrtFn, so every statement
proved below holds for every square-root routine; claims that need the
exact square root instantiate sqrtFn with Real.sqrt.
-/
import Mathlib

namespace WarpXFluid

variable {α : Type} [LinearOrderedField α]

/-- Modelled from the spec: the slope limiter ave of MusclHancockUtils.H is
not under src/.  Per spec section 4.2 and section 8 it returns 0 when the two
arguments have opposite sign or one vanishes, and otherwise is the
harmonic-mean-like (van Leer) blend, which reduces to a when a = b. -/
def ave (a b : α) : α :=
  if a * b ≤ 0 then 0 else 2 * a * b / (a + b)

/-- Modelled from the spec: the two-point numerical flux of
MusclHancockUtils.H is not under src/.  Per spec section 4.3 it is a standard
upwind/averaging (local Lax-Friedrichs) flux of the two predicted edge
states straddling a face and their local velocities: it reduces to pure
upwinding when one velocity dominates and to a central average of the
transported quantities at equal states. -/
def flux (qm qp vl vr : α) : α :=
  (vl * qm + vr * qp) / 2 - max |vl| |vr| * (qp - qm) / 2

/-- The fluid state of one mesh level: scalar density N and the three
momentum-density components, one value per node (WarpXFluidContainer.H:
MultiFabs N and NU[0..2]). -/
structure FluidState (ι : Type) (α : Type) where
  N : ι → α
  NUx : ι → α
  NUy : ι → α
  NUz : ι → α

/-- The four conserved moments (N, NUx, NUy, NUz) indexed by component,
matching the 4-component temporaries tmp_Q_minus/plus of
AdvectivePush_Muscl. -/
def mom {ι : Type} (s : FluidState ι α) : Fin 4 → ι → α
  | 0 => s.N
  | 1 => s.NUx
  | 2 => s.NUy
  | 3 => s.NUz

variable {G1 G2 G3 : Type} [AddGroupWithOne G1] [AddGroupWithOne G2] [AddGroupWithOne G3]

/-- Shift a mesh index by d cells along x. -/
def px (d : G1) (i : G1 × G2 × G3) : G1 × G2 × G3 := (i.1 + d, i.2.1, i.2.2)

/-- Shift a mesh index by d cells along y. -/
def py (d : G2) (i : G1 × G2 × G3) : G1 × G2 × G3 := (i.1, i.2.1 + d, i.2.2)

/-- Shift a mesh index by d cells along z. -/
def pz (d : G3) (i : G1 × G2 × G3) : G1 × G2 × G3 := (i.1, i.2.1, i.2.2 + d)

/-- The per-step context of the MUSCL advection push: the numeric square
root, the speed of light, the time step and the cell spacings
(WarpXFluidContainer.cpp lines 164-176). -/
structure MusclCtx (α : Type) where
  sqrtFn : α → α
  clight : α
  dt : α
  dx : α
  dy : α
  dz : α

/-- The kinematic Lorentz factor gamma = sqrt(1 + (Ux^2+Uy^2+Uz^2)/c^2)
computed by AdvectivePush_Muscl (line 241) from the bulk momentum. -/
def gammaKin (sq : α → α) (c ux uy uz : α) : α :=
  sq (1 + (ux * ux + uy * uy + uz * uz) / (c * c))

/-- Bulk momentum Ux = NUx/N isolated from the conserved moments
(line 235). -/
def Uxv {ι : Type} (s : FluidState ι α) (i : ι) : α := s.NUx i / s.N i

/-- Bulk momentum Uy = NUy/N (line 236). -/
def Uyv {ι : Type} (s : FluidState ι α) (i : ι) : α := s.NUy i / s.N i

/-- Bulk momentum Uz = NUz/N (line 237). -/
def Uzv {ι : Type} (s : FluidState ι α) (i : ι) : α := s.NUz i / s.N i

/-- The local gamma of a cell in the advection push (line 241). -/
def gammav {ι : Type} (ctx : MusclCtx α) (s : FluidState ι α) (i : ι) : α :=
  gammaKin ctx.sqrtFn ctx.clight (Uxv s i) (Uyv s i) (Uzv s i)

/-- Cell velocity Vx = Ux/gamma stored in tmp_Vx (line 246). -/
def Vxv {ι : Type} (ctx : MusclCtx α) (s : FluidState ι α) (i : ι) : α :=
  Uxv s i / gammav ctx s i

/-- Cell velocity Vy = Uy/gamma (line 247). -/
def Vyv {ι : Type} (ctx : MusclCtx α) (s : FluidState ι α) (i : ι) : α :=
  Uyv s i / gammav ctx s i

/-- Cell velocity Vz = Uz/gamma (line 248). -/
def Vzv {ι : Type} (ctx : MusclCtx α) (s : FluidState ι α) (i : ι) : α :=
  Uzv s i / gammav ctx s i

/-- The 4x4 flux Jacobian along x, rows and columns over (N,NUx,NUy,NUz),
transcribed from lines 253-272 of AdvectivePush_Muscl. -/
def jacX (c ux uy uz g : α) : Fin 4 → Fin 4 → α := fun r co =>
  let uxs := ux * ux
  let uys := uy * uy
  let uzs := uz * uz
  let uxc := uxs * ux
  let uyc := uys * uy
  let uzc := uzs * uz
  let csq := c * c
  let gc := g * g * g
  let a := csq * gc
  match r, co with
  | 0, 0 => (ux * uzs + ux * uys + uxc) / a
  | 0, 1 => (csq + uzs + uys) / a
  | 0, 2 => -(ux * uy) / a
  | 0, 3 => -(ux * uz) / a
  | 1, 0 => -uxs / gc
  | 1, 1 => (2 * ux * csq + 2 * ux * uzs + 2 * ux * uys + uxc) / a
  | 1, 2 => -(uxs * uy) / a
  | 1, 3 => -(uxs * uz) / a
  | 2, 0 => -(ux * uy) / gc
  | 2, 1 => (uy * csq + uy * uzs + uyc) / a
  | 2, 2 => (ux * csq + ux * uzs + uxc) / a
  | 2, 3 => -(ux * uy * uz) / a
  | 3, 0 => -(ux * uz) / gc
  | 3, 1 => (uz * csq + uzc + uys * uz) / a
  | 3, 2 => -(ux * uy * uz) / a
  | 3, 3 => (ux * csq + ux * uys + uxc) / a

/-- The 4x4 flux Jacobian along y, transcribed from lines 275-294. -/
def jacY (c ux uy uz g : α) : Fin 4 → Fin 4 → α := fun r co =>
  let uxs := ux * ux
  let uys := uy * uy
  let uzs := uz * uz
  let uxc := uxs * ux
  let uyc := uys * uy
  let uzc := uzs * uz
  let csq := c * c
  let gc := g * g * g
  let a := csq * gc
  match r, co with
  | 0, 0 => (uy * uzs + uyc + uxs * uy) / a
  | 0, 1 => -(ux * uy) / a
  | 0, 2 => (csq + uzs + uxs) / a
  | 0, 3 => -(uy * uz) / a
  | 1, 0 => -(ux * uy) / gc
  | 1, 1 => (uy * csq + uy * uzs + uyc) / a
  | 1, 2 => (ux * csq + ux * uzs + uxc) / a
  | 1, 3 => -(ux * uy * uz) / a
  | 2, 0 => -uys / gc
  | 2, 1 => -(ux * uys) / a
  | 2, 2 => (2 * uy * csq + 2 * uy * uzs + uyc + 2 * uxs * uy) / a
  | 2, 3 => -(uys * uz) / a
  | 3, 0 => -(uy * uz) / gc
  | 3, 1 => -(ux * uy * uz) / a
  | 3, 2 => (uz * csq + uzc + uxs * uz) / a
  | 3, 3 => (uy * csq + uyc + uxs * uy) / a

/-- The 4x4 flux Jacobian along z, transcribed from lines 297-316. -/
def jacZ (c ux uy uz g : α) : Fin 4 → Fin 4 → α := fun r co =>
  let uxs := ux * ux
  let uys := uy * uy
  let uzs := uz * uz
  let uxc := uxs * ux
  let uyc := uys * uy
  let uzc := uzs * uz
  let csq := c * c
  let gc := g * g * g
  let a := csq * gc
  match r, co with
  | 0, 0 => (uzc + (uys + uxs) * uz) / a
  | 0, 1 => -(ux * uz) / a
  | 0, 2 => -(uy * uz) / a
  | 0, 3 => (csq + uys + uxs) / a
  | 1, 0 => -(ux * uz) / gc
  | 1, 1 => (uz * csq + uzc + uys * uz) / a
  | 1, 2 => -(ux * uy * uz) / a
  | 1, 3 => (ux * csq + ux * uys + uxc) / a
  | 2, 0 => -(uy * uz) / gc
  | 2, 1 => -(ux * uy * uz) / a
  | 2, 2 => (uz * csq + uzc + uxs * uz) / a
  | 2, 3 => (uy * csq + uyc + uxs * uy) / a
  | 3, 0 => -uzs / gc
  | 3, 1 => -(ux * uzs) / a
  | 3, 2 => -(uy * uzs) / a
  | 3, 3 => (2 * uz * csq + uzc + (2 * uys + 2 * uxs) * uz) / a

/-- Limited cell slope of moment c along x (lines 319-322): the ave of the
backward and forward differences. -/
def dQx (s : FluidState (G1 × G2 × G3) α) (c : Fin 4) (i : G1 × G2 × G3) : α :=
  ave (mom s c i - mom s c (px (-1) i)) (mom s c (px 1 i) - mom s c i)

/-- Limited cell slope of moment c along y (lines 325-328). -/
def dQy (s : FluidState (G1 × G2 × G3) α) (c : Fin 4) (i : G1 × G2 × G3) : α :=
  ave (mom s c i - mom s c (py (-1) i)) (mom s c (py 1 i) - mom s c i)

/-- Limited cell slope of moment c along z (lines 331-334). -/
def dQz (s : FluidState (G1 × G2 × G3) α) (c : Fin 4) (i : G1 × G2 × G3) : α :=
  ave (mom s c i - mom s c (pz (-1) i)) (mom s c (pz 1 i) - mom s c i)

/-- Jacobian-times-slope along x, row c (lines 337-340). -/
def AdQx (ctx : MusclCtx α) (s : FluidState (G1 × G2 × G3) α) (c : Fin 4)
    (i : G1 × G2 × G3) : α :=
  ∑ d : Fin 4,
    jacX ctx.clight (Uxv s i) (Uyv s i) (Uzv s i) (gammav ctx s i) c d * dQx s d i

/-- Jacobian-times-slope along y, row c (lines 341-344). -/
def AdQy (ctx : MusclCtx α) (s : FluidState (G1 × G2 × G3) α) (c : Fin 4)
    (i : G1 × G2 × G3) : α :=
  ∑ d : Fin 4,
    jacY ctx.clight (Uxv s i) (Uyv s i) (Uzv s i) (gammav ctx s i) c d * dQy s d i

/-- Jacobian-times-slope along z, row c (lines 345-348). -/
def AdQz (ctx : MusclCtx α) (s : FluidState (G1 × G2 × G3) α) (c : Fin 4)
    (i : G1 × G2 × G3) : α :=
  ∑ d : Fin 4,
    jacZ ctx.clight (Uxv s i) (Uyv s i) (Uzv s i) (gammav ctx s i) c d * dQz s d i

/-- The half-time-step predicted cell value Q_tilde (lines 349-352), with
the halved Courant factors cx_half = 0.5*(dt/dx) of lines 174-176. -/
def Qtilde (ctx : MusclCtx α) (s : FluidState (G1 × G2 × G3) α) (c : Fin 4)
    (i : G1 × G2 × G3) : α :=
  mom s c i - ctx.dt / ctx.dx / 2 * AdQx ctx s c i
            - ctx.dt / ctx.dy / 2 * AdQy ctx s c i
            - ctx.dt / ctx.dz / 2 * AdQz ctx s c i

/-- Predicted edge state Q_minus_x stored at face index i (lines 356-361). -/
def QmX (ctx : MusclCtx α) (s : FluidState (G1 × G2 × G3) α) (c : Fin 4)
    (i : G1 × G2 × G3) : α :=
  Qtilde ctx s c i + dQx s c i / 2

/-- Predicted edge state Q_plus_x stored at face index i: the cell i+1
writes it at i-1+1 = i (lines 362-367, the _plus shift). -/
def QpX (ctx : MusclCtx α) (s : FluidState (G1 × G2 × G3) α) (c : Fin 4)
    (i : G1 × G2 × G3) : α :=
  Qtilde ctx s c (px 1 i) - dQx s c (px 1 i) / 2

/-- Predicted edge state Q_minus_y at face index i (lines 370-375). -/
def QmY (ctx : MusclCtx α) (s : FluidState (G1 × G2 × G3) α) (c : Fin 4)
    (i : G1 × G2 × G3) : α :=
  Qtilde ctx s c i + dQy s c i / 2

/-- Predicted edge state Q_plus_y at face index i (lines 376-381). -/
def QpY (ctx : MusclCtx α) (s : FluidState (G1 × G2 × G3) α) (c : Fin 4)
    (i : G1 × G2 × G3) : α :=
  Qtilde ctx s c (py 1 i) - dQy s c (py 1 i) / 2

/-- Predicted edge state Q_minus_z at face index i (lines 382-388). -/
def QmZ (ctx : MusclCtx α) (s : FluidState (G1 × G2 × G3) α) (c : Fin 4)
    (i : G1 × G2 × G3) : α :=
  Qtilde ctx s c i + dQz s c i / 2

/-- Predicted edge state Q_plus_z at face index i (lines 389-394). -/
def QpZ (ctx : MusclCtx α) (s : FluidState (G1 × G2 × G3) α) (c : Fin 4)
    (i : G1 × G2 × G3) : α :=
  Qtilde ctx s c (pz 1 i) - dQz s c (pz 1 i) / 2

/-- Numerical flux through the x face stored at index i, from the two
predicted edge states straddling the face and the two adjacent cell
velocities: F_plusx of cell i and also F_minusx of cell i+1
(lines 441-448). -/
def FfX (ctx : MusclCtx α) (s : FluidState (G1 × G2 × G3) α) (c : Fin 4)
    (i : G1 × G2 × G3) : α :=
  flux (QmX ctx s c i) (QpX ctx s c i) (Vxv ctx s i) (Vxv ctx s (px 1 i))

/-- Numerical flux through the y face stored at index i (lines 450-457). -/
def FfY (ctx : MusclCtx α) (s : FluidState (G1 × G2 × G3) α) (c : Fin 4)
    (i : G1 × G2 × G3) : α :=
  flux (QmY ctx s c i) (QpY ctx s c i) (Vyv ctx s i) (Vyv ctx s (py 1 i))

/-- Numerical flux through the z face stored at index i (lines 459-466). -/
def FfZ (ctx : MusclCtx α) (s : FluidState (G1 × G2 × G3) α) (c : Fin 4)
    (i : G1 × G2 × G3) : α :=
  flux (QmZ ctx s c i) (QpZ ctx s c i) (Vzv ctx s i) (Vzv ctx s (pz 1 i))

/-- The conservative finite-volume update of moment c at cell i
(lines 469-480): Q_new = Q_old - (dt/dx)(F_plusx - F_minusx)
- (dt/dy)(F_plusy - F_minusy) - (dt/dz)(F_plusz - F_minusz), with the
Courant factors cx = dt/dx of lines 171-173. -/
def upd (ctx : MusclCtx α) (s : FluidState (G1 × G2 × G3) α) (c : Fin 4)
    (i : G1 × G2 × G3) : α :=
  mom s c i - ctx.dt / ctx.dx * (FfX ctx s c i - FfX ctx s c (px (-1) i))
            - ctx.dt / ctx.dy * (FfY ctx s c i - FfY ctx s c (py (-1) i))
            - ctx.dt / ctx.dz * (FfZ ctx s c i - FfZ ctx s c (pz (-1) i))

/-- One MUSCL-Hancock advective push (AdvectivePush_Muscl, 3-D branch):
slope-limited reconstruction, half-step prediction through the flux
Jacobians, face fluxes, and the conservative update of all four moments. -/
def advectivePushMuscl (ctx : MusclCtx α) (s : FluidState (G1 × G2 × G3) α) :
    FluidState (G1 × G2 × G3) α :=
  ⟨fun i => upd ctx s 0 i, fun i => upd ctx s 1 i,
   fun i => upd ctx s 2 i, fun i => upd ctx s 3 i⟩

/-- Modelled from the spec: UpdateMomentumHigueraCary.H is not under src/.
Per spec section 4.4 the pusher is the exact/semi-implicit relativistic
Boris-family Higuera-Cary integrator advancing the bulk momentum U under the
Lorentz force from the (already interpolated) nodal E and B over dt; per
spec section 8 it leaves U unchanged when E = B = 0.  The numeric square
root is the explicit parameter sq. -/
def updateMomentumHigueraCary (sq : α → α) (c : α)
    (ux uy uz ex ey ez bx bby bz q m dt : α) : α × α × α :=
  let econst := q * dt / (2 * m)
  let umx := ux + econst * ex
  let umy := uy + econst * ey
  let umz := uz + econst * ez
  let taux := econst * bx
  let tauy := econst * bby
  let tauz := econst * bz
  let tausq := taux * taux + tauy * tauy + tauz * tauz
  let gmsq := 1 + (umx * umx + umy * umy + umz * umz) / (c * c)
  let ustar := (umx * taux + umy * tauy + umz * tauz) / c
  let sigma := gmsq - tausq
  let gp := sq ((sigma + sq (sigma * sigma + 4 * (tausq + ustar * ustar))) / 2)
  let tx := taux / gp
  let ty := tauy / gp
  let tz := tauz / gp
  let sfac := 1 / (1 + (tx * tx + ty * ty + tz * tz))
  let udott := umx * tx + umy * ty + umz * tz
  let upx := sfac * (umx + udott * tx + (umy * tz - umz * ty))
  let upy := sfac * (umy + udott * ty + (umz * tx - umx * tz))
  let upz := sfac * (umz + udott * tz + (umx * ty - umy * tx))
  (upx + econst * ex + (upy * tz - upz * ty),
   upy + econst * ey + (upz * tx - upx * tz),
   upz + econst * ez + (upx * ty - upy * tx))

/-- The momentum source stage GatherAndPush (lines 499-598), parametric in
the momentum pusher: at every node it isolates U = NU/N (lines 574-576),
pushes U under the interpolated nodal fields (lines 579-581) and restores
NU = N * U (lines 584-586); N is only read, never written.  The field
interpolation adapter of spec section 4.5 is an external collaborator, so
the nodal field values ex..bz are inputs here. -/
def gatherAndPush {ι : Type}
    (push : α → α → α → α → α → α → α → α → α → α → α → α → α × α × α)
    (q m dt : α) (ex ey ez bx bbyf bz : ι → α) (s : FluidState ι α) :
    FluidState ι α :=
  ⟨s.N,
   fun i => s.N i * (push (s.NUx i / s.N i) (s.NUy i / s.N i) (s.NUz i / s.N i)
      (ex i) (ey i) (ez i) (bx i) (bbyf i) (bz i) q m dt).1,
   fun i => s.N i * (push (s.NUx i / s.N i) (s.NUy i / s.N i) (s.NUz i / s.N i)
      (ex i) (ey i) (ez i) (bx i) (bbyf i) (bz i) q m dt).2.1,
   fun i => s.N i * (push (s.NUx i / s.N i) (s.NUy i / s.N i) (s.NUz i / s.N i)
      (ex i) (ey i) (ez i) (bx i) (bbyf i) (bz i) q m dt).2.2⟩

/-- The charge deposition kernel DepositCharge (lines 626-631): where the
ownership mask is true, rho accumulates q*N; elsewhere rho is untouched. -/
def depositCharge {ι : Type} (q : α) (mask : ι → Bool) (nD : ι → α)
    (rho : ι → α) : ι → α :=
  fun i => if mask i then rho i + q * nD i else rho i

/-- The current-conserving deposition gamma of DepositCurrent (line 692):
gamma = sqrt(N*N + (NUx^2+NUy^2+NUz^2) * (1/c/c)) / N. -/
def gammaDep (sq : α → α) (c nv nux nuy nuz : α) : α :=
  sq (nv * nv + (nux * nux + nuy * nuy + nuz * nuz) * (1 / c / c)) / nv

/-- The node-centered fluid current of DepositCurrent (lines 688-697):
j = q * NU / gamma with the deposition gamma. -/
def nodalCurrent {ι : Type} (sq : α → α) (q c : α) (s : FluidState ι α) :
    (ι → α) × (ι → α) × (ι → α) :=
  (fun i => q * (s.NUx i /
      gammaDep sq c (s.N i) (s.NUx i) (s.NUy i) (s.NUz i)),
   fun i => q * (s.NUy i /
      gammaDep sq c (s.N i) (s.NUx i) (s.NUy i) (s.NUz i)),
   fun i => q * (s.NUz i /
      gammaDep sq c (s.N i) (s.NUx i) (s.NUy i) (s.NUz i)))

/-- The current deposition DepositCurrent (lines 636-748): the node-centered
current is resampled onto each staggered target component through the
interpolation adapters (external collaborators, spec section 4.5) and
accumulated into the pre-existing jx, jy, jz exactly where the
per-component ownership mask is true (lines 728-747). -/
def depositCurrent {ι : Type} (sq : α → α) (q c : α)
    (interpx interpy interpz : (ι → α) → ι → α)
    (mx my mz : ι → Bool) (s : FluidState ι α)
    (jx jy jz : ι → α) : (ι → α) × (ι → α) × (ι → α) :=
  (fun i => if mx i then jx i + interpx (nodalCurrent sq q c s).1 i else jx i,
   fun i => if my i then jy i + interpy (nodalCurrent sq q c s).2.1 i else jy i,
   fun i => if mz i then jz i + interpz (nodalCurrent sq q c s).2.2 i else jz i)

/-- One Evolve step without deposition (lines 138-156): the Lorentz push
followed by the advective push. -/
def evolveStep (ctx : MusclCtx α) (q m : α)
    (ex ey ez bx bbyf bz : G1 × G2 × G3 → α)
    (s : FluidState (G1 × G2 × G3) α) : FluidState (G1 × G2 × G3) α :=
  advectivePushMuscl ctx
    (gatherAndPush (updateMomentumHigueraCary ctx.sqrtFn ctx.clight)
      q m ctx.dt ex ey ez bx bbyf bz s)

/-- The uniform at-rest state of spec section 8: N = 1 and NU = 0 at every
node. -/
def uniformRest {ι : Type} : FluidState ι α :=
  ⟨fun _ => 1, fun _ => 0, fun _ => 0, fun _ => 0⟩

end WarpXFluid

namespace VelocityCoincidenceThinning

/-- The element exchange of HeapSort::swap, acting on the index array
modelled as a function from positions to stored indices. -/
def swapA (f : ℕ → ℤ) (p q : ℕ) : ℕ → ℤ :=
  Function.update (Function.update f p (f q)) q (f p)

/-- The first while loop of HeapSort::operator() (part_000 lines 77-82):
move the child at heap slot j up through the heap while it is bigger than
its parent.  Slot j lives at array position j + start; the key of a slot is
the bin_array value at the stored index. -/
def siftUp (bin : ℤ → ℤ) (start : ℕ) (f : ℕ → ℤ) (j : ℕ) : ℕ → ℤ :=
  if 0 < j ∧ bin (f ((j - 1) / 2 + start)) < bin (f (j + start)) then
    siftUp bin start (swapA f (j + start) ((j - 1) / 2 + start)) ((j - 1) / 2)
  else f
termination_by j
decreasing_by omega

/-- The heap construction loop (part_000 lines 74-83): sort index_array
into a max heap by sifting up slots 1, ..., n-1 in order; buildHeap f m
performs the first m iterations (slot 0 is a no-op). -/
def buildHeap (bin : ℤ → ℤ) (start : ℕ) (f : ℕ → ℤ) : ℕ → (ℕ → ℤ)
  | 0 => f
  | m + 1 => siftUp bin start (buildHeap bin start f m) m

/-- The child the sift-down step descends to (part_000 lines 93-98):
the right child 2j+2 when it exists below the bound and its key beats the
left child, otherwise the left child 2j+1. -/
def pickChild (bin : ℤ → ℤ) (start : ℕ) (f : ℕ → ℤ) (i j : ℕ) : ℕ :=
  if 2 * j + 2 < i ∧ bin (f (2 * j + 1 + start)) < bin (f (2 * j + 2 + start))
  then 2 * j + 2 else 2 * j + 1

/-- The second while loop of HeapSort::operator() (part_000 lines 91-104):
remake the max heap on slots [0, i) by walking down from slot j, swapping
the current slot with its larger child when that child has the bigger key,
and unconditionally descending to the chosen child. -/
def siftDown (bin : ℤ → ℤ) (start : ℕ) (f : ℕ → ℤ) (i j : ℕ) : ℕ → ℤ :=
  if j < i then
    siftDown bin start
      (if pickChild bin start f i j < i ∧
          bin (f (j + start)) < bin (f (pickChild bin start f i j + start))
       then swapA f (j + start) (pickChild bin start f i j + start)
       else f)
      i (pickChild bin start f i j)
  else f
termination_by i - j
decreasing_by
  have : j < pickChild bin start f i j := by unfold pickChild; split <;> omega
  omega

/-- The extraction loop (part_000 lines 85-105): for i = n-1 down to 1,
swap the root (largest remaining value) to slot i and remake the heap on
the remaining slots [0, i); extractLoop f k performs the iterations with
loop counter k, k-1, ..., 1. -/
def extractLoop (bin : ℤ → ℤ) (start : ℕ) (f : ℕ → ℤ) : ℕ → (ℕ → ℤ)
  | 0 => f
  | i + 1 =>
      extractLoop bin start
        (siftDown bin start (swapA f start (i + 1 + start)) (i + 1) 0) i

/-- HeapSort::operator() (part_000 lines 70-106): heap construction over
slots [0, n) followed by the extraction loop from i = n-1. -/
def heapSort (bin : ℤ → ℤ) (start : ℕ) (f : ℕ → ℤ) (n : ℕ) : ℕ → ℤ :=
  extractLoop bin start (buildHeap bin start f n) (n - 1)

/-- The window of the index array covered by one heapSort call: the values
at positions start, start+1, ..., start+n-1. -/
def win (f : ℕ → ℤ) (start n : ℕ) : List ℤ :=
  (List.range n).map fun j => f (j + start)

/-- The sort key of heap slot j: the bin_array entry at the stored index. -/
def keyf (bin : ℤ → ℤ) (start : ℕ) (f : ℕ → ℤ) (j : ℕ) : ℤ :=
  bin (f (j + start))

/-- Max-heap property on heap slots [0, m): every non-root slot key is at
most its parent slot key, the parent of slot ch being (ch-1)/2. -/
def IsHeapUpTo (bin : ℤ → ℤ) (start m : ℕ) (f : ℕ → ℤ) : Prop :=
  ∀ ch, ch < m → 0 < ch →
    keyf bin start f ch ≤ keyf bin start f ((ch - 1) / 2)

/-- Sift-up invariant: heap on [0, m) except possibly at slot j, and every
child of j is dominated by the parent of j. -/
def AlmostUp (bin : ℤ → ℤ) (start m j : ℕ) (f : ℕ → ℤ) : Prop :=
  (∀ ch, ch < m → 0 < ch → ch ≠ j →
    keyf bin start f ch ≤ keyf bin start f ((ch - 1) / 2)) ∧
  (0 < j → ∀ ch, ch < m → (ch - 1) / 2 = j →
    keyf bin start f ch ≤ keyf bin start f ((j - 1) / 2))

/-- Sift-down invariant: heap on [0, i) except possibly on the edges from
slot j down to its children, and every child of j is dominated by the
parent of j. -/
def AlmostDown (bin : ℤ → ℤ) (start i j : ℕ) (f : ℕ → ℤ) : Prop :=
  (∀ ch, ch < i → 0 < ch → (ch - 1) / 2 ≠ j →
    keyf bin start f ch ≤ keyf bin start f ((ch - 1) / 2)) ∧
  (0 < j → ∀ ch, ch < i → (ch - 1) / 2 = j →
    keyf bin start f ch ≤ keyf bin start f ((j - 1) / 2))

/-- Slots [a, n) hold keys in nondecreasing order. -/
def SortedFrom (bin : ℤ → ℤ) (start a n : ℕ) (f : ℕ → ℤ) : Prop :=
  ∀ p q, a ≤ p → p ≤ q → q < n →
    keyf bin start f p ≤ keyf bin start f q

/-- Every key in slots [0, a) is at most every key in slots [a, n). -/
def DomBelow (bin : ℤ → ℤ) (start a n : ℕ) (f : ℕ → ℤ) : Prop :=
  ∀ p q, p < a → a ≤ q → q < n →
    keyf bin start f p ≤ keyf bin start f q

end VelocityCoincidenceThinning

namespace WarpXFluid

variable {α : Type} [LinearOrderedField α]

variable {G1 G2 G3 : Type} [AddGroupWithOne G1] [AddGroupWithOne G2] [AddGroupWithOne G3]

lemma px_cancel (i : G1 × G2 × G3) : px (1 : G1) (px (-1) i) = i := by
  simp [px]

lemma py_cancel (i : G1 × G2 × G3) : py (1 : G2) (py (-1) i) = i := by
  simp [py]

lemma pz_cancel (i : G1 × G2 × G3) : pz (1 : G3) (pz (-1) i) = i := by
  simp [pz]

/-- Claim C2: for every cell, every nodal field values, charge, mass and
time step, and in fact every momentum pusher, GatherAndPush leaves the
density N exactly unchanged; the momentum densities become the untouched
pre-push N times the pushed bulk momentum U, so the updated U = NU/N pairs
with the same pre-push N. -/
theorem gatherAndPush_preserves_density {ι : Type}
    (push : α → α → α → α → α → α → α → α → α → α → α → α → α × α × α)
    (q m dt : α) (ex ey ez bx bbyf bz : ι → α) (s : FluidState ι α) (i : ι) :
    (gatherAndPush push q m dt ex ey ez bx bbyf bz s).N i = s.N i ∧
    (gatherAndPush push q m dt ex ey ez bx bbyf bz s).NUx i =
      s.N i * (push (s.NUx i / s.N i) (s.NUy i / s.N i) (s.NUz i / s.N i)
        (ex i) (ey i) (ez i) (bx i) (bbyf i) (bz i) q m dt).1 ∧
    (gatherAndPush push q m dt ex ey ez bx bbyf bz s).NUy i =
      s.N i * (push (s.NUx i / s.N i) (s.NUy i / s.N i) (s.NUz i / s.N i)
        (ex i) (ey i) (ez i) (bx i) (bbyf i) (bz i) q m dt).2.1 ∧
    (gatherAndPush push q m dt ex ey ez bx bbyf bz s).NUz i =
      s.N i * (push (s.NUx i / s.N i) (s.NUy i / s.N i) (s.NUz i / s.N i)
        (ex i) (ey i) (ez i) (bx i) (bbyf i) (bz i) q m dt).2.2 :=
  ⟨rfl, rfl, rfl, rfl⟩

/-- Claim C3: every cell updates each of the four conserved moments exactly
once, by the explicit conservative formula Q_new = Q_old minus the sum over
axes of (dt/dx_axis) times the difference of the two face fluxes, each face
flux computed by the flux function from the two predicted edge states
straddling that face and the adjacent cell velocities. -/
theorem advectivePushMuscl_update_formula (ctx : MusclCtx α)
    (s : FluidState (G1 × G2 × G3) α) (c : Fin 4) (i : G1 × G2 × G3) :
    mom (advectivePushMuscl ctx s) c i =
      mom s c i
      - ctx.dt / ctx.dx *
          (flux (QmX ctx s c i) (QpX ctx s c i)
              (Vxv ctx s i) (Vxv ctx s (px 1 i))
           - flux (QmX ctx s c (px (-1) i)) (QpX ctx s c (px (-1) i))
              (Vxv ctx s (px (-1) i)) (Vxv ctx s i))
      - ctx.dt / ctx.dy *
          (flux (QmY ctx s c i) (QpY ctx s c i)
              (Vyv ctx s i) (Vyv ctx s (py 1 i))
           - flux (QmY ctx s c (py (-1) i)) (QpY ctx s c (py (-1) i))
              (Vyv ctx s (py (-1) i)) (Vyv ctx s i))
      - ctx.dt / ctx.dz *
          (flux (QmZ ctx s c i) (QpZ ctx s c i)
              (Vzv ctx s i) (Vzv ctx s (pz 1 i))
           - flux (QmZ ctx s c (pz (-1) i)) (QpZ ctx s c (pz (-1) i))
              (Vzv ctx s (pz (-1) i)) (Vzv ctx s i)) := by
  fin_cases c <;>
    (simp only [advectivePushMuscl, mom, upd, FfX, FfY, FfZ,
      px_cancel, py_cancel, pz_cancel]; rfl)

/-- Claim C6: the slope limiter returns 0 whenever its arguments have
product at most zero, reproduces a at equal nonzero arguments, and never
exceeds twice the larger argument magnitude. -/
theorem ave_limiter_properties (a b : α) :
    (a * b ≤ 0 → ave a b = 0) ∧
    (a = b → a ≠ 0 → ave a b = a) ∧
    |ave a b| ≤ 2 * max |a| |b| := by
  refine ⟨fun h => by rw [ave, if_pos h], ?_, ?_⟩
  · rintro rfl h0
    have hpos : 0 < a * a := mul_self_pos.mpr h0
    have hne : a + a ≠ 0 := by
      intro hs
      exact h0 (by linarith [eq_neg_of_add_eq_zero_left hs])
    rw [ave, if_neg (not_le.mpr hpos)]
    field_simp
    ring
  · by_cases h : a * b ≤ 0
    · rw [ave, if_pos h, abs_zero]
      positivity
    · rw [ave, if_neg h]
      push_neg at h
      have hane : a ≠ 0 := by rintro rfl; simp at h
      have hbne : b ≠ 0 := by rintro rfl; simp at h
      have habs : |a + b| = |a| + |b| := by
        rcases mul_pos_iff.mp h with ⟨ha, hb⟩ | ⟨ha, hb⟩
        · rw [abs_of_pos ha, abs_of_pos hb, abs_of_pos (by linarith)]
        · rw [abs_of_neg ha, abs_of_neg hb, abs_of_neg (by linarith)]
          ring
      have hsum : 0 < |a| + |b| := by
        have := abs_pos.mpr hane
        have := abs_pos.mpr hbne
        linarith
      rw [abs_div, habs, div_le_iff₀ hsum, abs_mul, abs_mul]
      have h2 : |(2 : α)| = 2 := by
        rw [abs_of_pos]; norm_num
      rw [h2]
      rcases le_max_iff.mp (le_refl (max |a| |b|)) with _ | _ <;>
      · have hma := le_max_left |a| |b|
        have hmb := le_max_right |a| |b|
        have h0a := abs_nonneg a
        have h0b := abs_nonneg b
        nlinarith

/-- Claim C7: DepositCharge adds q times the local density into the
pre-existing rho exactly at the nodes where the ownership mask is true and
leaves rho unchanged where the mask is false. -/
theorem depositCharge_masked_accumulation {ι : Type} (q : α) (mask : ι → Bool)
    (nD rho : ι → α) (i : ι) :
    (mask i = true → depositCharge q mask nD rho i = rho i + q * nD i) ∧
    (mask i = false → depositCharge q mask nD rho i = rho i) := by
  constructor <;> intro h <;> simp [depositCharge, h]

/-- Claim C4: DepositCurrent forms the node-centered current
q*NU/gammaDep with gammaDep = sqrt(N^2 + (NUx^2+NUy^2+NUz^2)/c^2)/N,
resamples it through the per-component interpolation adapter, and adds the
result to the pre-existing staggered current exactly at the nodes owned per
the component mask; masked-out nodes keep their prior value. -/
theorem depositCurrent_masked_accumulation {ι : Type} (sq : α → α) (q c : α)
    (interpx interpy interpz : (ι → α) → ι → α) (mx my mz : ι → Bool)
    (s : FluidState ι α) (jx jy jz : ι → α) (i : ι) :
    ((mx i = true →
      (depositCurrent sq q c interpx interpy interpz mx my mz s jx jy jz).1 i =
        jx i + interpx (fun i2 => q * (s.NUx i2 /
          gammaDep sq c (s.N i2) (s.NUx i2) (s.NUy i2) (s.NUz i2))) i) ∧
     (mx i = false →
      (depositCurrent sq q c interpx interpy interpz mx my mz s jx jy jz).1 i =
        jx i)) ∧
    ((my i = true →
      (depositCurrent sq q c interpx interpy interpz mx my mz s jx jy jz).2.1 i =
        jy i + interpy (fun i2 => q * (s.NUy i2 /
          gammaDep sq c (s.N i2) (s.NUx i2) (s.NUy i2) (s.NUz i2))) i) ∧
     (my i = false →
      (depositCurrent sq q c interpx interpy interpz mx my mz s jx jy jz).2.1 i =
        jy i)) ∧
    ((mz i = true →
      (depositCurrent sq q c interpx interpy interpz mx my mz s jx jy jz).2.2 i =
        jz i + interpz (fun i2 => q * (s.NUz i2 /
          gammaDep sq c (s.N i2) (s.NUx i2) (s.NUy i2) (s.NUz i2))) i) ∧
     (mz i = false →
      (depositCurrent sq q c interpx interpy interpz mx my mz s jx jy jz).2.2 i =
        jz i)) := by
  refine ⟨⟨?_, ?_⟩, ⟨?_, ?_⟩, ?_, ?_⟩ <;> intro h <;>
    simp [depositCurrent, nodalCurrent, h]

/-- Claim C5: for identical input moments, depositing charge and current
from two overlapping patches whose ownership masks are disjoint and jointly
cover a node gives the same accumulated value at that node as one
deposition from a single patch owning every node: each contribution is
added exactly once. -/
theorem deposit_disjoint_masks_no_double_counting {ι : Type} (sq : α → α)
    (q c : α) (interpx interpy interpz : (ι → α) → ι → α)
    (m1 m2 m1x m2x m1y m2y m1z m2z : ι → Bool) (nD rho : ι → α)
    (s : FluidState ι α) (jx jy jz : ι → α) (i : ι)
    (hd : ¬(m1 i = true ∧ m2 i = true)) (hc : m1 i = true ∨ m2 i = true)
    (hdx : ¬(m1x i = true ∧ m2x i = true)) (hcx : m1x i = true ∨ m2x i = true)
    (hdy : ¬(m1y i = true ∧ m2y i = true)) (hcy : m1y i = true ∨ m2y i = true)
    (hdz : ¬(m1z i = true ∧ m2z i = true)) (hcz : m1z i = true ∨ m2z i = true) :
    depositCharge q m2 nD (depositCharge q m1 nD rho) i =
      depositCharge q (fun _ => true) nD rho i ∧
    (depositCurrent sq q c interpx interpy interpz m2x m2y m2z s
        (depositCurrent sq q c interpx interpy interpz m1x m1y m1z s jx jy jz).1
        (depositCurrent sq q c interpx interpy interpz m1x m1y m1z s jx jy jz).2.1
        (depositCurrent sq q c interpx interpy interpz m1x m1y m1z s jx jy jz).2.2).1 i =
      (depositCurrent sq q c interpx interpy interpz
        (fun _ => true) (fun _ => true) (fun _ => true) s jx jy jz).1 i ∧
    (depositCurrent sq q c interpx interpy interpz m2x m2y m2z s
        (depositCurrent sq q c interpx interpy interpz m1x m1y m1z s jx jy jz).1
        (depositCurrent sq q c interpx interpy interpz m1x m1y m1z s jx jy jz).2.1
        (depositCurrent sq q c interpx interpy interpz m1x m1y m1z s jx jy jz).2.2).2.1 i =
      (depositCurrent sq q c interpx interpy interpz
        (fun _ => true) (fun _ => true) (fun _ => true) s jx jy jz).2.1 i ∧
    (depositCurrent sq q c interpx interpy interpz m2x m2y m2z s
        (depositCurrent sq q c interpx interpy interpz m1x m1y m1z s jx jy jz).1
        (depositCurrent sq q c interpx interpy interpz m1x m1y m1z s jx jy jz).2.1
        (depositCurrent sq q c interpx interpy interpz m1x m1y m1z s jx jy jz).2.2).2.2 i =
      (depositCurrent sq q c interpx interpy interpz
        (fun _ => true) (fun _ => true) (fun _ => true) s jx jy jz).2.2 i := by
  refine ⟨?_, ?_, ?_, ?_⟩
  · rcases Bool.eq_false_or_eq_true (m1 i) with h1 | h1 <;>
    rcases Bool.eq_false_or_eq_true (m2 i) with h2 | h2 <;>
      simp_all [depositCharge]
  · rcases Bool.eq_false_or_eq_true (m1x i) with h1 | h1 <;>
    rcases Bool.eq_false_or_eq_true (m2x i) with h2 | h2 <;>
      simp_all [depositCurrent, nodalCurrent]
  · rcases Bool.eq_false_or_eq_true (m1y i) with h1 | h1 <;>
    rcases Bool.eq_false_or_eq_true (m2y i) with h2 | h2 <;>
      simp_all [depositCurrent, nodalCurrent]
  · rcases Bool.eq_false_or_eq_true (m1z i) with h1 | h1 <;>
    rcases Bool.eq_false_or_eq_true (m2z i) with h2 | h2 <;>
      simp_all [depositCurrent, nodalCurrent]

lemma sum_shift_x {n1 n2 n3 : ℕ} [NeZero n1] [NeZero n2] [NeZero n3]
    (g : ZMod n1 × ZMod n2 × ZMod n3 → α) (d : ZMod n1) :
    ∑ i, g (px d i) = ∑ i, g i :=
  Fintype.sum_equiv (Equiv.prodCongr (Equiv.addRight d) (Equiv.refl _))
    _ _ (fun _ => rfl)

lemma sum_shift_y {n1 n2 n3 : ℕ} [NeZero n1] [NeZero n2] [NeZero n3]
    (g : ZMod n1 × ZMod n2 × ZMod n3 → α) (d : ZMod n2) :
    ∑ i, g (py d i) = ∑ i, g i :=
  Fintype.sum_equiv
    (Equiv.prodCongr (Equiv.refl _)
      (Equiv.prodCongr (Equiv.addRight d) (Equiv.refl _)))
    _ _ (fun _ => rfl)

lemma sum_shift_z {n1 n2 n3 : ℕ} [NeZero n1] [NeZero n2] [NeZero n3]
    (g : ZMod n1 × ZMod n2 × ZMod n3 → α) (d : ZMod n3) :
    ∑ i, g (pz d i) = ∑ i, g i :=
  Fintype.sum_equiv
    (Equiv.prodCongr (Equiv.refl _)
      (Equiv.prodCongr (Equiv.refl _) (Equiv.addRight d)))
    _ _ (fun _ => rfl)

/-- Claim C1: on a periodic domain, one advective push leaves the total
density unchanged, exactly, for every fluid state and every step context:
the face flux stored at index i is subtracted from cell i and added to cell
i+1, so the flux differences telescope to zero over the periodic grid. -/
theorem advectivePushMuscl_conserves_total_density
    {n1 n2 n3 : ℕ} [NeZero n1] [NeZero n2] [NeZero n3] (ctx : MusclCtx α)
    (s : FluidState (ZMod n1 × ZMod n2 × ZMod n3) α) :
    ∑ i, (advectivePushMuscl ctx s).N i = ∑ i, s.N i := by
  have hx : ∑ i, FfX ctx s 0 (px (-1) i) = ∑ i, FfX ctx s 0 i :=
    sum_shift_x (FfX ctx s 0) (-1)
  have hy : ∑ i, FfY ctx s 0 (py (-1) i) = ∑ i, FfY ctx s 0 i :=
    sum_shift_y (FfY ctx s 0) (-1)
  have hz : ∑ i, FfZ ctx s 0 (pz (-1) i) = ∑ i, FfZ ctx s 0 i :=
    sum_shift_z (FfZ ctx s 0) (-1)
  show ∑ i, upd ctx s 0 i = ∑ i, s.N i
  simp only [upd]
  rw [Finset.sum_sub_distrib, Finset.sum_sub_distrib, Finset.sum_sub_distrib,
    ← Finset.mul_sum, ← Finset.mul_sum, ← Finset.mul_sum,
    Finset.sum_sub_distrib, Finset.sum_sub_distrib, Finset.sum_sub_distrib,
    hx, hy, hz]
  simp [mom]

/-- Claim C1, witness: the conservation theorem evaluated on a concrete
2x1x1 periodic grid with a concrete state and step context. -/
theorem advectivePushMuscl_conserves_total_density_witness :
    ∑ i, (advectivePushMuscl
        (MusclCtx.mk id 1 1 1 1 1)
        (FluidState.mk (fun _ => 2) (fun i => if i.1 = 0 then 1 else 3)
          (fun _ => 0) (fun _ => 0) :
            FluidState (ZMod 2 × ZMod 1 × ZMod 1) ℚ)).N i =
      ∑ i, (FluidState.mk (fun _ => 2) (fun i => if i.1 = 0 then 1 else 3)
          (fun _ => 0) (fun _ => 0) :
            FluidState (ZMod 2 × ZMod 1 × ZMod 1) ℚ).N i :=
  advectivePushMuscl_conserves_total_density _ _

/-- Claim C9: with the exact square root, the deposition gamma
sqrt(N^2 + |NU|^2/c^2)/N computed by DepositCurrent equals the kinematic
Lorentz factor sqrt(1 + |U|^2/c^2) of the advection stage evaluated at
U = NU/N, and hence the deposited current q*NU/gammaDep equals
q*N*(U/gammaKin): the two gamma formulas agree on every state with
positive density. -/
theorem deposition_gamma_eq_kinematic_gamma (nv nux nuy nuz c q : ℝ)
    (hn : 0 < nv) (hc : 0 < c) :
    gammaDep Real.sqrt c nv nux nuy nuz =
      gammaKin Real.sqrt c (nux / nv) (nuy / nv) (nuz / nv) ∧
    q * (nux / gammaDep Real.sqrt c nv nux nuy nuz) =
      q * nv * ((nux / nv) /
        gammaKin Real.sqrt c (nux / nv) (nuy / nv) (nuz / nv)) ∧
    q * (nuy / gammaDep Real.sqrt c nv nux nuy nuz) =
      q * nv * ((nuy / nv) /
        gammaKin Real.sqrt c (nux / nv) (nuy / nv) (nuz / nv)) ∧
    q * (nuz / gammaDep Real.sqrt c nv nux nuy nuz) =
      q * nv * ((nuz / nv) /
        gammaKin Real.sqrt c (nux / nv) (nuy / nv) (nuz / nv)) := by
  have hnum : 0 ≤ nv * nv + (nux * nux + nuy * nuy + nuz * nuz) * (1 / c / c) :=
    add_nonneg (mul_self_nonneg nv)
      (mul_nonneg
        (add_nonneg (add_nonneg (mul_self_nonneg nux) (mul_self_nonneg nuy))
          (mul_self_nonneg nuz))
        (div_nonneg (div_nonneg zero_le_one hc.le) hc.le))
  have hg : gammaDep Real.sqrt c nv nux nuy nuz =
      gammaKin Real.sqrt c (nux / nv) (nuy / nv) (nuz / nv) := by
    unfold gammaDep gammaKin
    have h1 : 1 + (nux / nv * (nux / nv) + nuy / nv * (nuy / nv) +
        nuz / nv * (nuz / nv)) / (c * c) =
        (nv * nv + (nux * nux + nuy * nuy + nuz * nuz) * (1 / c / c)) /
          (nv * nv) := by
      have hnn : (nv : ℝ) ≠ 0 := hn.ne'
      have hcc : (c : ℝ) ≠ 0 := hc.ne'
      rw [eq_div_iff (by positivity : nv * nv ≠ 0)]
      field_simp
      ring
    rw [h1, Real.sqrt_div hnum, Real.sqrt_mul_self hn.le]
  refine ⟨hg, ?_, ?_, ?_⟩ <;>
  · rw [hg]
    symm
    rw [div_div, mul_assoc, mul_div_assoc', mul_div_mul_left _ _ hn.ne']

/-- Claim C9, witness: the gamma-consistency theorem evaluated at a
concrete state. -/
theorem deposition_gamma_eq_kinematic_gamma_witness :
    gammaDep Real.sqrt 1 1 0 0 0 = gammaKin Real.sqrt 1 (0 / 1) (0 / 1) (0 / 1) ∧
    (1 : ℝ) * (0 / gammaDep Real.sqrt 1 1 0 0 0) =
      1 * 1 * (0 / 1 / gammaKin Real.sqrt 1 (0 / 1) (0 / 1) (0 / 1)) ∧
    (1 : ℝ) * (0 / gammaDep Real.sqrt 1 1 0 0 0) =
      1 * 1 * (0 / 1 / gammaKin Real.sqrt 1 (0 / 1) (0 / 1) (0 / 1)) ∧
    (1 : ℝ) * (0 / gammaDep Real.sqrt 1 1 0 0 0) =
      1 * 1 * (0 / 1 / gammaKin Real.sqrt 1 (0 / 1) (0 / 1) (0 / 1)) :=
  deposition_gamma_eq_kinematic_gamma 1 0 0 0 1 1 (by norm_num) (by norm_num)

lemma updateMomentumHigueraCary_zero_field (sq : α → α) (c ux uy uz q m dt : α) :
    updateMomentumHigueraCary sq c ux uy uz 0 0 0 0 0 0 q m dt =
      (ux, uy, uz) := by
  simp [updateMomentumHigueraCary]

lemma gatherAndPush_uniformRest {ι : Type} (sq : α → α) (c q m dt : α) :
    gatherAndPush (updateMomentumHigueraCary sq c) q m dt
      (fun _ => 0) (fun _ => 0) (fun _ => 0) (fun _ => 0) (fun _ => 0)
      (fun _ => 0) (uniformRest : FluidState ι α) = uniformRest := by
  unfold gatherAndPush uniformRest
  congr 1 <;> funext i <;>
    simp [updateMomentumHigueraCary_zero_field]

lemma Vxv_uniformRest (ctx : MusclCtx α) (i : G1 × G2 × G3) :
    Vxv ctx (uniformRest : FluidState (G1 × G2 × G3) α) i = 0 := by
  simp [Vxv, Uxv, uniformRest]

lemma Vyv_uniformRest (ctx : MusclCtx α) (i : G1 × G2 × G3) :
    Vyv ctx (uniformRest : FluidState (G1 × G2 × G3) α) i = 0 := by
  simp [Vyv, Uyv, uniformRest]

lemma Vzv_uniformRest (ctx : MusclCtx α) (i : G1 × G2 × G3) :
    Vzv ctx (uniformRest : FluidState (G1 × G2 × G3) α) i = 0 := by
  simp [Vzv, Uzv, uniformRest]

lemma flux_zero_vel (qm qp : α) : flux qm qp 0 0 = 0 := by
  simp [flux]

lemma advectivePushMuscl_uniformRest (ctx : MusclCtx α) :
    advectivePushMuscl ctx (uniformRest : FluidState (G1 × G2 × G3) α) =
      uniformRest := by
  have h : ∀ (c : Fin 4) (i : G1 × G2 × G3),
      upd ctx (uniformRest : FluidState (G1 × G2 × G3) α) c i =
        mom (uniformRest : FluidState (G1 × G2 × G3) α) c i := by
    intro c i
    simp [upd, FfX, FfY, FfZ, Vxv_uniformRest, Vyv_uniformRest,
      Vzv_uniformRest, flux_zero_vel]
  unfold advectivePushMuscl uniformRest
  congr 1 <;> funext i
  · exact h 0 i
  · exact h 1 i
  · exact h 2 i
  · exact h 3 i

/-- Claim C8: on a periodic 3-D grid of any size, with zero fields and the
uniform at-rest state N = 1, NU = 0, one Lorentz push followed by one
advective push (the Evolve sequence without deposition) leaves the state
unchanged at every node. -/
theorem evolveStep_uniform_rest_invariant {n1 n2 n3 : ℕ} (ctx : MusclCtx α)
    (q m : α) (i : ZMod n1 × ZMod n2 × ZMod n3) :
    (evolveStep ctx q m (fun _ => 0) (fun _ => 0) (fun _ => 0) (fun _ => 0)
        (fun _ => 0) (fun _ => 0) uniformRest).N i = 1 ∧
    (evolveStep ctx q m (fun _ => 0) (fun _ => 0) (fun _ => 0) (fun _ => 0)
        (fun _ => 0) (fun _ => 0) uniformRest).NUx i = 0 ∧
    (evolveStep ctx q m (fun _ => 0) (fun _ => 0) (fun _ => 0) (fun _ => 0)
        (fun _ => 0) (fun _ => 0) uniformRest).NUy i = 0 ∧
    (evolveStep ctx q m (fun _ => 0) (fun _ => 0) (fun _ => 0) (fun _ => 0)
        (fun _ => 0) (fun _ => 0) uniformRest).NUz i = 0 := by
  unfold evolveStep
  rw [gatherAndPush_uniformRest, advectivePushMuscl_uniformRest]
  exact ⟨rfl, rfl, rfl, rfl⟩

/-- Claim C6, witness: the limiter properties evaluated at concrete
rational inputs. -/
theorem ave_limiter_properties_witness :
    ave (1 : ℚ) (-1) = 0 ∧ ave (2 : ℚ) 2 = 2 ∧
    |ave (3 : ℚ) 5| ≤ 2 * max |(3 : ℚ)| |(5 : ℚ)| :=
  ⟨(ave_limiter_properties 1 (-1)).1 (by norm_num),
   (ave_limiter_properties 2 2).2.1 rfl (by norm_num),
   (ave_limiter_properties 3 5).2.2⟩

/-- Claim C7, witness: the charge deposition evaluated at a concrete owned
node and a concrete non-owned node. -/
theorem depositCharge_masked_accumulation_witness :
    depositCharge (2 : ℚ) (fun _ : Unit => true) (fun _ => 3) (fun _ => 1) () =
      1 + 2 * 3 ∧
    depositCharge (2 : ℚ) (fun _ : Unit => false) (fun _ => 3) (fun _ => 1) () =
      1 :=
  ⟨(depositCharge_masked_accumulation 2 (fun _ => true)
      (fun _ => 3) (fun _ => 1) ()).1 rfl,
   (depositCharge_masked_accumulation 2 (fun _ => false)
      (fun _ => 3) (fun _ => 1) ()).2 rfl⟩

/-- Claim C4, witness: the current deposition evaluated at a concrete node
owned for jx and not owned for jy. -/
theorem depositCurrent_masked_accumulation_witness :
    (depositCurrent id (1 : ℚ) 1 (fun g => g) (fun g => g) (fun g => g)
        (fun _ => true) (fun _ => false) (fun _ => true)
        (uniformRest : FluidState Unit ℚ)
        (fun _ => 5) (fun _ => 7) (fun _ => 9)).1 () = 5 ∧
    (depositCurrent id (1 : ℚ) 1 (fun g => g) (fun g => g) (fun g => g)
        (fun _ => true) (fun _ => false) (fun _ => true)
        (uniformRest : FluidState Unit ℚ)
        (fun _ => 5) (fun _ => 7) (fun _ => 9)).2.1 () = 7 := by
  constructor
  · have h := (depositCurrent_masked_accumulation id (1 : ℚ) 1
      (fun g => g) (fun g => g) (fun g => g)
      (fun _ => true) (fun _ => false) (fun _ => true)
      (uniformRest : FluidState Unit ℚ)
      (fun _ => 5) (fun _ => 7) (fun _ => 9) ()).1.1 rfl
    simpa [uniformRest, gammaDep] using h
  · exact (depositCurrent_masked_accumulation id (1 : ℚ) 1
      (fun g => g) (fun g => g) (fun g => g)
      (fun _ => true) (fun _ => false) (fun _ => true)
      (uniformRest : FluidState Unit ℚ)
      (fun _ => 5) (fun _ => 7) (fun _ => 9) ()).2.1.2 rfl

/-- Claim C5, witness: the no-double-counting theorem evaluated on a
concrete node with one owning patch. -/
theorem deposit_disjoint_masks_no_double_counting_witness :
    depositCharge (2 : ℚ) (fun _ : Unit => false) (fun _ => 3)
        (depositCharge 2 (fun _ => true) (fun _ => 3) (fun _ => 1)) () =
      depositCharge 2 (fun _ => true) (fun _ => 3) (fun _ => 1) () :=
  (deposit_disjoint_masks_no_double_counting id 2 1
    (fun g => g) (fun g => g) (fun g => g)
    (fun _ => true) (fun _ => false) (fun _ => true) (fun _ => false)
    (fun _ => true) (fun _ => false) (fun _ => true) (fun _ => false)
    (fun _ => 3) (fun _ => 1) (uniformRest : FluidState Unit ℚ)
    (fun _ => 0) (fun _ => 0) (fun _ => 0) ()
    (by simp) (Or.inl rfl) (by simp) (Or.inl rfl)
    (by simp) (Or.inl rfl) (by simp) (Or.inl rfl)).1

end WarpXFluid

namespace VelocityCoincidenceThinning

lemma swapA_fst (f : ℕ → ℤ) (p q : ℕ) : swapA f p q p = f q := by
  rcases eq_or_ne p q with h | h
  · subst h; simp [swapA]
  · simp [swapA, Function.update_apply, h, h.symm]

lemma swapA_snd (f : ℕ → ℤ) (p q : ℕ) : swapA f p q q = f p := by
  simp [swapA]

lemma swapA_other (f : ℕ → ℤ) (p q x : ℕ) (hp : x ≠ p) (hq : x ≠ q) :
    swapA f p q x = f x := by
  simp [swapA, Function.update_apply, hp, hq]

lemma swap_range_perm (a b n : ℕ) (ha : a < n) (hb : b < n) :
    ((List.range n).map fun j => Equiv.swap a b j).Perm (List.range n) := by
  apply List.perm_of_nodup_nodup_toFinset_eq
  · exact (List.nodup_range n).map (Equiv.injective _)
  · exact List.nodup_range n
  · ext x
    simp only [List.mem_toFinset, List.mem_map, List.mem_range]
    constructor
    · rintro ⟨y, hy, rfl⟩
      rw [Equiv.swap_apply_def]
      split_ifs <;> omega
    · intro hx
      refine ⟨Equiv.swap a b x, ?_, Equiv.swap_apply_self a b x⟩
      rw [Equiv.swap_apply_def]
      split_ifs <;> omega

lemma win_swapA (f : ℕ → ℤ) (start n a b : ℕ) (ha : a < n) (hb : b < n) :
    (win (swapA f (a + start) (b + start)) start n).Perm (win f start n) := by
  unfold win
  have h1 : ((List.range n).map fun j => swapA f (a + start) (b + start) (j + start)) =
      (List.range n).map ((fun j => f (j + start)) ∘ fun j => Equiv.swap a b j) := by
    apply List.map_congr_left
    intro j hj
    rcases eq_or_ne j a with rfl | hja
    · simp only [Function.comp_apply, Equiv.swap_apply_left]
      exact swapA_fst f _ _
    · rcases eq_or_ne j b with rfl | hjb
      · simp only [Function.comp_apply, Equiv.swap_apply_right]
        exact swapA_snd f _ _
      · simp only [Function.comp_apply, Equiv.swap_apply_of_ne_of_ne hja hjb]
        exact swapA_other f _ _ _ (by omega) (by omega)
  rw [h1, ← List.map_map]
  exact (swap_range_perm a b n ha hb).map _

lemma win_split (f : ℕ → ℤ) (start : ℕ) {m n : ℕ} (h : m ≤ n) :
    win f start n = win f start m ++
      ((List.range (n - m)).map fun j => f (m + j + start)) := by
  unfold win
  conv_lhs => rw [show n = m + (n - m) by omega]
  rw [List.range_add, List.map_append, List.map_map]
  rfl

lemma win_perm_extend (f g : ℕ → ℤ) (start m n : ℕ) (hmn : m ≤ n)
    (hperm : (win g start m).Perm (win f start m))
    (hout : ∀ x, m ≤ x → x < n → g (x + start) = f (x + start)) :
    (win g start n).Perm (win f start n) := by
  rw [win_split g start hmn, win_split f start hmn]
  refine List.Perm.append hperm ?_
  have he : ((List.range (n - m)).map fun j => g (m + j + start)) =
      (List.range (n - m)).map fun j => f (m + j + start) := by
    apply List.map_congr_left
    intro j hj
    exact hout (m + j) (by omega) (by
      have := List.mem_range.mp hj
      omega)
  rw [he]

lemma lt_pickChild (bin : ℤ → ℤ) (start : ℕ) (f : ℕ → ℤ) (i j : ℕ) :
    j < pickChild bin start f i j := by
  unfold pickChild; split <;> omega

lemma pickChild_cases (bin : ℤ → ℤ) (start : ℕ) (f : ℕ → ℤ) (i j : ℕ) :
    pickChild bin start f i j = 2 * j + 1 ∨
      pickChild bin start f i j = 2 * j + 2 := by
  unfold pickChild; split
  · exact Or.inr rfl
  · exact Or.inl rfl

lemma siftUp_touch (bin : ℤ → ℤ) (start : ℕ) :
    ∀ j f x, (∀ p, p ≤ j → x ≠ p + start) → siftUp bin start f j x = f x := by
  intro j
  induction j using Nat.strong_induction_on with
  | _ j ih =>
    intro f x hx
    rw [siftUp]
    split
    · next h =>
      obtain ⟨h0, _⟩ := h
      rw [ih ((j - 1) / 2) (by omega) _ x fun p hp => hx p (by omega)]
      exact swapA_other _ _ _ _ (hx j le_rfl) (hx ((j - 1) / 2) (by omega))
    · rfl

lemma siftDown_touch (bin : ℤ → ℤ) (start : ℕ) :
    ∀ k i j f x, i - j = k → (∀ p, p < i → x ≠ p + start) →
      siftDown bin start f i j x = f x := by
  intro k
  induction k using Nat.strong_induction_on with
  | _ k ih =>
    intro i j f x hk hx
    rw [siftDown]
    split
    · next hj =>
      have hpc := lt_pickChild bin start f i j
      rw [ih (i - pickChild bin start f i j) (by omega) i _ _ x rfl hx]
      split
      · next hsw => exact swapA_other _ _ _ _ (hx j hj) (hx _ hsw.1)
      · rfl
    · rfl

lemma siftUp_perm (bin : ℤ → ℤ) (start n : ℕ) :
    ∀ j f, j < n → (win (siftUp bin start f j) start n).Perm (win f start n) := by
  intro j
  induction j using Nat.strong_induction_on with
  | _ j ih =>
    intro f hj
    rw [siftUp]
    split
    · next h =>
      obtain ⟨h0, _⟩ := h
      refine (ih ((j - 1) / 2) (by omega) _ (by omega)).trans ?_
      exact win_swapA f start n j ((j - 1) / 2) hj (by omega)
    · exact List.Perm.refl _

lemma siftDown_perm (bin : ℤ → ℤ) (start n : ℕ) :
    ∀ k i j f, i - j = k → i ≤ n →
      (win (siftDown bin start f i j) start n).Perm (win f start n) := by
  intro k
  induction k using Nat.strong_induction_on with
  | _ k ih =>
    intro i j f hk hin
    rw [siftDown]
    split
    · next hj =>
      have hpc := lt_pickChild bin start f i j
      refine (ih (i - pickChild bin start f i j) (by omega) i _ _ rfl hin).trans ?_
      split
      · next hsw =>
        exact win_swapA f start n j (pickChild bin start f i j) (by omega)
          (by omega)
      · exact List.Perm.refl _
    · exact List.Perm.refl _

lemma buildHeap_touch (bin : ℤ → ℤ) (start : ℕ) (f : ℕ → ℤ) :
    ∀ m x, (∀ p, p < m → x ≠ p + start) → buildHeap bin start f m x = f x := by
  intro m
  induction m with
  | zero => intro x hx; rfl
  | succ m ih =>
    intro x hx
    show siftUp bin start (buildHeap bin start f m) m x = f x
    rw [siftUp_touch bin start m _ x fun p hp => hx p (by omega)]
    exact ih x fun p hp => hx p (by omega)

lemma buildHeap_perm (bin : ℤ → ℤ) (start n : ℕ) (f : ℕ → ℤ) :
    ∀ m, m ≤ n → (win (buildHeap bin start f m) start n).Perm (win f start n) := by
  intro m
  induction m with
  | zero => intro hm; exact List.Perm.refl _
  | succ m ih =>
    intro hm
    exact (siftUp_perm bin start n m _ (by omega)).trans (ih (by omega))

lemma extractLoop_touch (bin : ℤ → ℤ) (start : ℕ) :
    ∀ k f x, (∀ p, p < k + 1 → x ≠ p + start) →
      extractLoop bin start f k x = f x := by
  intro k
  induction k with
  | zero => intro f x hx; rfl
  | succ k ih =>
    intro f x hx
    have h1 : x ≠ start := by have := hx 0 (by omega); omega
    have h2 : x ≠ k + 1 + start := hx (k + 1) (by omega)
    show extractLoop bin start
        (siftDown bin start (swapA f start (k + 1 + start)) (k + 1) 0) k x = f x
    rw [ih _ x fun p hp => hx p (by omega),
      siftDown_touch bin start (k + 1 - 0) (k + 1) 0 _ x rfl
        fun p hp => hx p (by omega)]
    exact swapA_other _ _ _ _ h1 h2

lemma extractLoop_perm (bin : ℤ → ℤ) (start n : ℕ) :
    ∀ k f, k < n → (win (extractLoop bin start f k) start n).Perm (win f start n) := by
  intro k
  induction k with
  | zero => intro f hk; exact List.Perm.refl _
  | succ k ih =>
    intro f hk
    show (win (extractLoop bin start
        (siftDown bin start (swapA f start (k + 1 + start)) (k + 1) 0) k)
        start n).Perm _
    refine (ih _ (by omega)).trans ?_
    refine (siftDown_perm bin start n (k + 1 - 0) (k + 1) 0 _ rfl (by omega)).trans ?_
    have h0 : swapA f start (k + 1 + start) =
        swapA f (0 + start) (k + 1 + start) := by rw [Nat.zero_add]
    rw [h0]
    exact win_swapA f start n 0 (k + 1) (by omega) (by omega)

lemma keyf_swapA_left (bin : ℤ → ℤ) (start : ℕ) (f : ℕ → ℤ) (a b : ℕ) :
    keyf bin start (swapA f (a + start) (b + start)) a = keyf bin start f b := by
  unfold keyf; rw [swapA_fst]

lemma keyf_swapA_right (bin : ℤ → ℤ) (start : ℕ) (f : ℕ → ℤ) (a b : ℕ) :
    keyf bin start (swapA f (a + start) (b + start)) b = keyf bin start f a := by
  unfold keyf; rw [swapA_snd]

lemma keyf_swapA_other (bin : ℤ → ℤ) (start : ℕ) (f : ℕ → ℤ) (a b x : ℕ)
    (hxa : x ≠ a) (hxb : x ≠ b) :
    keyf bin start (swapA f (a + start) (b + start)) x = keyf bin start f x := by
  unfold keyf; rw [swapA_other _ _ _ _ (by omega) (by omega)]

lemma siftUp_heap (bin : ℤ → ℤ) (start m : ℕ) :
    ∀ j f, j < m → AlmostUp bin start m j f →
      IsHeapUpTo bin start m (siftUp bin start f j) := by
  intro j
  induction j using Nat.strong_induction_on with
  | _ j ih =>
    intro f hjm hA
    rw [siftUp]
    split
    · next h =>
      obtain ⟨h0, hlt⟩ := h
      have hp : (j - 1) / 2 < j := by omega
      apply ih ((j - 1) / 2) hp _ (by omega)
      constructor
      · intro ch hch hch0 hcp
        rcases eq_or_ne ch j with rfl | hcj
        · have hpar : (ch - 1) / 2 = (ch - 1) / 2 := rfl
          rw [keyf_swapA_left bin start f ch ((ch - 1) / 2),
            keyf_swapA_right bin start f ch ((ch - 1) / 2)]
          exact le_of_lt hlt
        · rw [keyf_swapA_other bin start f j ((j - 1) / 2) ch hcj hcp]
          rcases eq_or_ne ((ch - 1) / 2) j with hpj | hpj
          · rw [hpj, keyf_swapA_left bin start f j ((j - 1) / 2)]
            exact hA.2 h0 ch hch hpj
          · rcases eq_or_ne ((ch - 1) / 2) ((j - 1) / 2) with hpp | hpp
            · rw [hpp, keyf_swapA_right bin start f j ((j - 1) / 2)]
              exact (hA.1 ch hch hch0 hcj).trans
                (le_of_lt (by rw [hpp]; exact hlt))
            · rw [keyf_swapA_other bin start f j ((j - 1) / 2) _ hpj hpp]
              exact hA.1 ch hch hch0 hcj
      · intro h0p ch hch hpar
        have hgp : ((j - 1) / 2 - 1) / 2 < (j - 1) / 2 := by omega
        have hgpj : ((j - 1) / 2 - 1) / 2 ≠ j := by omega
        have hgpp : ((j - 1) / 2 - 1) / 2 ≠ (j - 1) / 2 := by omega
        rw [keyf_swapA_other bin start f j ((j - 1) / 2) _ hgpj hgpp]
        rcases eq_or_ne ch j with rfl | hcj
        · rw [keyf_swapA_left bin start f ch ((ch - 1) / 2)]
          exact hA.1 ((ch - 1) / 2) (by omega) h0p (by omega)
        · have hcp : ch ≠ (j - 1) / 2 := by omega
          rw [keyf_swapA_other bin start f j ((j - 1) / 2) ch hcj hcp]
          have h1 : keyf bin start f ch ≤ keyf bin start f ((j - 1) / 2) := by
            have := hA.1 ch hch (by omega) hcj
            rw [hpar] at this
            exact this
          exact h1.trans (hA.1 ((j - 1) / 2) (by omega) h0p (by omega))
    · next h =>
      intro ch hch hch0
      rcases eq_or_ne ch j with rfl | hcj
      · exact le_of_not_lt fun hl => h ⟨hch0, hl⟩
      · exact hA.1 ch hch hch0 hcj

lemma buildHeap_isHeap (bin : ℤ → ℤ) (start : ℕ) (f : ℕ → ℤ) :
    ∀ m, IsHeapUpTo bin start m (buildHeap bin start f m) := by
  intro m
  induction m with
  | zero => intro ch hch hch0; omega
  | succ m ih =>
    show IsHeapUpTo bin start (m + 1)
      (siftUp bin start (buildHeap bin start f m) m)
    apply siftUp_heap bin start (m + 1) m _ (by omega)
    constructor
    · intro ch hch hch0 hcj
      exact ih ch (by omega) hch0
    · intro h0 ch hch hpar
      exfalso; omega

lemma pickChild_max (bin : ℤ → ℤ) (start : ℕ) (f : ℕ → ℤ) (i j : ℕ) :
    ∀ ch, ch < i → 0 < ch → (ch - 1) / 2 = j →
      keyf bin start f ch ≤ keyf bin start f (pickChild bin start f i j) := by
  intro ch hch hch0 hpar
  have hch2 : ch = 2 * j + 1 ∨ ch = 2 * j + 2 := by omega
  unfold pickChild
  split
  · next hcond =>
    rcases hch2 with rfl | rfl
    · exact le_of_lt hcond.2
    · exact le_refl _
  · next hcond =>
    rcases hch2 with rfl | rfl
    · exact le_refl _
    · exact le_of_not_lt fun hl => hcond ⟨hch, hl⟩

lemma pickChild_right_lt (bin : ℤ → ℤ) (start : ℕ) (f : ℕ → ℤ) (i j : ℕ) :
    pickChild bin start f i j = 2 * j + 2 → 2 * j + 2 < i := by
  unfold pickChild
  split
  · next hcond => intro _; exact hcond.1
  · intro h; omega

lemma siftDown_heap (bin : ℤ → ℤ) (start : ℕ) :
    ∀ k i j f, i - j = k → AlmostDown bin start i j f →
      IsHeapUpTo bin start i (siftDown bin start f i j) := by
  intro k
  induction k using Nat.strong_induction_on with
  | _ k ih =>
    intro i j f hk hA
    rw [siftDown]
    split
    · next hj =>
      have hjd : j < pickChild bin start f i j := lt_pickChild bin start f i j
      have hd_cases := pickChild_cases bin start f i j
      have hpard : (pickChild bin start f i j - 1) / 2 = j := by omega
      split
      · next hsw =>
        obtain ⟨hdi, hkjd⟩ := hsw
        set d := pickChild bin start f i j with hd
        apply ih (i - d) (by omega) i d _ rfl
        constructor
        · intro ch hch hch0 hchp
          rcases eq_or_ne ch d with rfl | hchd
          · rw [hpard, keyf_swapA_right bin start f j d,
              keyf_swapA_left bin start f j d]
            exact le_of_lt hkjd
          · rcases eq_or_ne ch j with rfl | hchj
            · have hgpj : (ch - 1) / 2 ≠ ch := by omega
              have hgpd : (ch - 1) / 2 ≠ d := by omega
              rw [keyf_swapA_left bin start f ch d,
                keyf_swapA_other bin start f ch d _ hgpj hgpd]
              exact hA.2 hch0 d hdi hpard
            · rw [keyf_swapA_other bin start f j d ch hchj hchd]
              rcases eq_or_ne ((ch - 1) / 2) j with hpj | hpj
              · rw [hpj, keyf_swapA_left bin start f j d]
                exact pickChild_max bin start f i j ch hch hch0 hpj
              · rw [keyf_swapA_other bin start f j d _ hpj hchp]
                exact hA.1 ch hch hch0 hpj
        · intro h0d ch hch hchp
          have hchba : ch = 2 * d + 1 ∨ ch = 2 * d + 2 := by omega
          have hchd : ch ≠ d := by omega
          have hchj : ch ≠ j := by omega
          rw [hpard, keyf_swapA_left bin start f j d,
            keyf_swapA_other bin start f j d ch hchj hchd]
          rw [← hchp]
          exact hA.1 ch hch (by omega) (by omega)
      · next hns =>
        set d := pickChild bin start f i j with hd
        apply ih (i - d) (by omega) i d f rfl
        have hedge : ∀ ch, ch < i → 0 < ch → (ch - 1) / 2 = j →
            keyf bin start f ch ≤ keyf bin start f j := by
          intro ch hch hch0 hp
          have hch2 : ch = 2 * j + 1 ∨ ch = 2 * j + 2 := by omega
          have hdi : d < i := by
            rcases hd_cases with hd1 | hd2
            · omega
            · have := pickChild_right_lt bin start f i j hd2
              omega
          have h1 := pickChild_max bin start f i j ch hch hch0 hp
          have h2 : keyf bin start f d ≤ keyf bin start f j :=
            le_of_not_lt fun hl => hns ⟨hdi, hl⟩
          exact h1.trans h2
        constructor
        · intro ch hch hch0 hchp
          rcases eq_or_ne ((ch - 1) / 2) j with hpj | hpj
          · rw [hpj]
            exact hedge ch hch hch0 hpj
          · exact hA.1 ch hch hch0 hpj
        · intro h0d ch hch hchp
          rw [hpard]
          have hchba : ch = 2 * d + 1 ∨ ch = 2 * d + 2 := by omega
          have hdlt : d < i := by omega
          have h1 : keyf bin start f ch ≤ keyf bin start f d := by
            rw [← hchp]
            exact hA.1 ch hch (by omega) (by omega)
          exact h1.trans (le_of_not_lt fun hl => hns ⟨hdlt, hl⟩)
    · next hj =>
      intro ch hch hch0
      rcases eq_or_ne ((ch - 1) / 2) j with hpj | hpj
      · exfalso; omega
      · exact hA.1 ch hch hch0 hpj

lemma heap_le_root (bin : ℤ → ℤ) (start m : ℕ) (f : ℕ → ℤ)
    (hheap : IsHeapUpTo bin start m f) :
    ∀ j, j < m → keyf bin start f j ≤ keyf bin start f 0 := by
  intro j
  induction j using Nat.strong_induction_on with
  | _ j ih =>
    intro hj
    rcases Nat.eq_zero_or_pos j with rfl | h0
    · exact le_refl _
    · exact (hheap j hj h0).trans (ih ((j - 1) / 2) (by omega) (by omega))

lemma extract_inv (bin : ℤ → ℤ) (start n : ℕ) :
    ∀ k f, k < n → IsHeapUpTo bin start (k + 1) f →
      SortedFrom bin start (k + 1) n f → DomBelow bin start (k + 1) n f →
      SortedFrom bin start 0 n (extractLoop bin start f k) := by
  intro k
  induction k with
  | zero =>
    intro f hk hheap hsort hdom p q hp hpq hq
    rcases Nat.eq_zero_or_pos p with rfl | hp0
    · rcases Nat.eq_zero_or_pos q with rfl | hq0
      · exact le_refl _
      · exact hdom 0 q (by omega) (by omega) hq
    · exact hsort p q (by omega) hpq hq
  | succ k ih =>
    intro f hk hheap hsort hdom
    have hroot := heap_le_root bin start (k + 2) f hheap
    have hk0 : keyf bin start (swapA f start (k + 1 + start)) (k + 1) =
        keyf bin start f 0 := by
      unfold keyf
      rw [swapA_snd, Nat.zero_add]
    have hk1 : keyf bin start (swapA f start (k + 1 + start)) 0 =
        keyf bin start f (k + 1) := by
      unfold keyf
      rw [Nat.zero_add, swapA_fst]
    have hkx : ∀ x, x ≠ 0 → x ≠ k + 1 →
        keyf bin start (swapA f start (k + 1 + start)) x =
          keyf bin start f x := by
      intro x h0 h1
      unfold keyf
      rw [swapA_other f start (k + 1 + start) (x + start) (by omega) (by omega)]
    -- the key of g at every slot of [0, k+2) is bounded by the key at k+1
    have hgmax : ∀ p2, p2 < k + 2 →
        keyf bin start (swapA f start (k + 1 + start)) p2 ≤
          keyf bin start (swapA f start (k + 1 + start)) (k + 1) := by
      intro p2 hp2
      rw [hk0]
      rcases Nat.eq_zero_or_pos p2 with rfl | hp20
      · rw [hk1]; exact hroot (k + 1) (by omega)
      · rcases eq_or_ne p2 (k + 1) with rfl | hne
        · rw [hk0]
        · rw [hkx p2 (by omega) hne]; exact hroot p2 (by omega)
    have htouch : ∀ x, k + 1 ≤ x →
        keyf bin start
          (siftDown bin start (swapA f start (k + 1 + start)) (k + 1) 0) x =
          keyf bin start (swapA f start (k + 1 + start)) x := by
      intro x hx
      unfold keyf
      rw [siftDown_touch bin start (k + 1 - 0) (k + 1) 0 _ (x + start)
        rfl (fun p hp => by omega)]
    -- heap property of the sifted array on [0, k+1)
    have hheap2 : IsHeapUpTo bin start (k + 1)
        (siftDown bin start (swapA f start (k + 1 + start)) (k + 1) 0) := by
      apply siftDown_heap bin start (k + 1 - 0) (k + 1) 0 _ rfl
      constructor
      · intro ch hch hch0 hchp
        have hpch : (ch - 1) / 2 < ch := by omega
        rw [hkx ch (by omega) (by omega),
          hkx ((ch - 1) / 2) hchp (by omega)]
        exact hheap ch (by omega) hch0
      · intro h0; exact absurd h0 (by omega)
    -- sorted suffix
    have hsort2 : SortedFrom bin start (k + 1) n
        (siftDown bin start (swapA f start (k + 1 + start)) (k + 1) 0) := by
      intro p q hp hpq hq
      rw [htouch p hp, htouch q (by omega)]
      rcases eq_or_ne p (k + 1) with rfl | hpe
      · rcases eq_or_ne q (k + 1) with rfl | hqe
        · exact le_refl _
        · rw [hk0, hkx q (by omega) hqe]
          exact hdom 0 q (by omega) (by omega) hq
      · rw [hkx p (by omega) hpe, hkx q (by omega) (by omega)]
        exact hsort p q (by omega) hpq hq
    -- prefix keys bounded by suffix keys
    have hdom2 : DomBelow bin start (k + 1) n
        (siftDown bin start (swapA f start (k + 1 + start)) (k + 1) 0) := by
      intro p q hp hq hqn
      rw [htouch q hq]
      have hperm : (win
          (siftDown bin start (swapA f start (k + 1 + start)) (k + 1) 0)
          start (k + 1)).Perm
          (win (swapA f start (k + 1 + start)) start (k + 1)) :=
        siftDown_perm bin start (k + 1) (k + 1 - 0) (k + 1) 0 _ rfl (le_refl _)
      have hmem : siftDown bin start (swapA f start (k + 1 + start)) (k + 1) 0
          (p + start) ∈ win
          (siftDown bin start (swapA f start (k + 1 + start)) (k + 1) 0)
          start (k + 1) := by
        unfold win
        exact List.mem_map.mpr ⟨p, List.mem_range.mpr (by omega), rfl⟩
      have hmem2 := (hperm.mem_iff).mp hmem
      obtain ⟨p2, hp2r, hval⟩ := List.mem_map.mp hmem2
      have hp2 : p2 < k + 1 := List.mem_range.mp hp2r
      have hkey : keyf bin start
          (siftDown bin start (swapA f start (k + 1 + start)) (k + 1) 0) p =
          keyf bin start (swapA f start (k + 1 + start)) p2 := by
        unfold keyf; rw [← hval]
      rw [hkey]
      rcases eq_or_ne q (k + 1) with rfl | hqe
      · exact hgmax p2 (by omega)
      · rw [hkx q (by omega) hqe]
        rcases Nat.eq_zero_or_pos p2 with rfl | hp20
        · rw [hk1]
          exact hdom (k + 1) q (by omega) (by omega) hqn
        · rw [hkx p2 (by omega) (by omega)]
          exact hdom p2 q (by omega) (by omega) hqn
    exact ih _ (by omega) hheap2 hsort2 hdom2

/-- Claim C10: HeapSort::operator() terminates (it is a total function of
this development) and rearranges the window [start, start+n) of the index
array into a permutation of its prior contents that is nondecreasing under
the bin_array keys, leaving every entry outside the window unchanged; the
key array bin is a read-only parameter throughout. -/
theorem heapSort_sorts_by_key (bin : ℤ → ℤ) (start n : ℕ) (f : ℕ → ℤ) :
    (win (heapSort bin start f n) start n).Perm (win f start n) ∧
    (∀ p, p + 1 < n →
      bin (heapSort bin start f n (start + p)) ≤
        bin (heapSort bin start f n (start + (p + 1)))) ∧
    (∀ x, x < start ∨ start + n ≤ x → heapSort bin start f n x = f x) := by
  rcases Nat.eq_zero_or_pos n with rfl | hn
  · exact ⟨List.Perm.refl _, fun p hp => absurd hp (by omega), fun x hx => rfl⟩
  · refine ⟨?_, ?_, ?_⟩
    · show (win (extractLoop bin start (buildHeap bin start f n) (n - 1))
        start n).Perm _
      exact (extractLoop_perm bin start n (n - 1) _ (by omega)).trans
        (buildHeap_perm bin start n f n le_rfl)
    · have hsorted : SortedFrom bin start 0 n (heapSort bin start f n) := by
        have hone : n - 1 + 1 = n := by omega
        apply extract_inv bin start n (n - 1) (buildHeap bin start f n)
          (by omega)
        · rw [hone]
          exact buildHeap_isHeap bin start f n
        · intro p q hp hpq hq
          exact absurd hq (by omega)
        · intro p q hp hq hqn
          exact absurd hqn (by omega)
      intro p hp
      have h := hsorted p (p + 1) (by omega) (by omega) (by omega)
      rw [Nat.add_comm start p, Nat.add_comm start (p + 1)]
      exact h
    · intro x hx
      show extractLoop bin start (buildHeap bin start f n) (n - 1) x = f x
      rw [extractLoop_touch bin start (n - 1) _ x (fun p hp => by omega)]
      exact buildHeap_touch bin start f n x (fun p hp => by omega)

/-- Claim C10, witness: the heap sort theorem evaluated at a concrete key
array, window and index array. -/
theorem heapSort_sorts_by_key_witness :
    (win (heapSort id 1 (fun p => (7 : ℤ) - p) 3) 1 3).Perm
      (win (fun p => (7 : ℤ) - p) 1 3) ∧
    ((2 : ℕ) + 1 < 3 → False) ∧
    heapSort id 1 (fun p => (7 : ℤ) - p) 3 0 = 7 := by
  have h := heapSort_sorts_by_key id 1 3 (fun p => (7 : ℤ) - p)
  refine ⟨h.1, fun hc => absurd hc (by omega), ?_⟩
  rw [h.2.2 0 (Or.inl (by omega))]
  norm_num

end VelocityCoincidenceThinning
